import Mathlib

/-!
Shallow embedding of `src/analyzer/lib/analysis.py` (screener123).

The module works on Polars `Float64` columns.  We model a Polars float cell
by the inductive type `FV`: a missing value (`null`), `NaN`, the two IEEE-754
infinities, or a finite value modelled as a rational.  Polars float division
follows IEEE-754 (`x / 0.0 = ±inf`, `0.0 / 0.0 = NaN`); a `null` operand
propagates.  Aggregations (`max`, `min`, `mean`, `sum`) skip `null` entries;
for ordering Polars treats `NaN` as larger than every other float.

Python exceptions raised inside `analyze_pair_fast` are caught by its
blanket `try/except`, which returns `None`; we model the whole body in the
`Option` monad, a `none` standing both for the explicit `return None` and
for any caught exception (e.g. `float(None)` raising `TypeError`).
-/

namespace Screener

/-! ### Exact rational arithmetic

Finite Float64 arithmetic is modelled exactly on `ℚ`.  The standard field
operations of `ℚ` are `@[irreducible]` in this toolchain, which blocks
kernel evaluation of concrete runs, so the embedding uses the following
`mkRat`-based operations; the bridge theorems `qadd_eq`, `qsub_eq`,
`qmul_eq`, `qdiv_eq`, `qabs_eq` and `qsum_eq` below identify them with the
field operations of `ℚ`. -/

def qadd (a b : ℚ) : ℚ := mkRat (a.num * b.den + b.num * a.den) (a.den * b.den)

def qsub (a b : ℚ) : ℚ := mkRat (a.num * b.den - b.num * a.den) (a.den * b.den)

def qmul (a b : ℚ) : ℚ := mkRat (a.num * b.num) (a.den * b.den)

def qdiv (a b : ℚ) : ℚ :=
  if 0 ≤ b.num then mkRat (a.num * b.den) (b.num.toNat * a.den)
  else mkRat (-(a.num * b.den)) ((-b.num).toNat * a.den)

def qabs (a : ℚ) : ℚ := mkRat a.num.natAbs a.den

def qsum (l : List ℚ) : ℚ := l.foldr qadd 0

/-- A Polars `Float64` cell: missing, NaN, ±infinity, or a finite value
(modelled as a rational). -/
inductive FV where
  | null
  | nan
  | pinf
  | ninf
  | fin (q : ℚ)
deriving DecidableEq, Repr

namespace FV

def isNullB : FV → Bool
  | .null => true
  | _ => false

def isNanB : FV → Bool
  | .nan => true
  | _ => false

def isPinfB : FV → Bool
  | .pinf => true
  | _ => false

def isNinfB : FV → Bool
  | .ninf => true
  | _ => false

/-- Rank used by the Polars total order on floats (`NaN` greatest,
`null` handled separately by the aggregations). -/
def rank : FV → ℕ
  | .null => 0
  | .ninf => 1
  | .fin _ => 2
  | .pinf => 3
  | .nan => 4

/-- Polars total-order comparison on non-null float cells. -/
def fvLe (a b : FV) : Bool :=
  match a, b with
  | .fin p, .fin q => decide (p ≤ q)
  | _, _ => decide (rank a ≤ rank b)

/-- Finite component of a cell (0 for non-finite; only applied to finite
cells by `polarsMean`). -/
def finVal : FV → ℚ
  | .fin q => q
  | _ => 0

end FV

/-- `bid_ex1 / bid_ex2` on Polars Float64 columns: a null denominator
propagates null; division by zero follows IEEE-754 (`±inf`, `0/0 = NaN`). -/
def ratioFV (bid1 : ℚ) (bid2 : Option ℚ) : FV :=
  match bid2 with
  | none => .null
  | some b =>
      if b = 0 then
        if 0 < bid1 then .pinf
        else if bid1 < 0 then .ninf
        else .nan
      else .fin (qdiv bid1 b)

/-- `((ratio - 1.0) / 1.0 * 100)` lifted to float cells (line 113 of
`analysis.py`); affine maps leave `null`, `NaN` and the infinities fixed. -/
def deviationFV : FV → FV
  | .null => .null
  | .nan => .nan
  | .pinf => .pinf
  | .ninf => .ninf
  | .fin q => .fin (qmul (qdiv (qsub q 1) 1) 100)

/-- Polars `Expr.sign`: `sign(null) = null`, `sign(NaN) = NaN`,
`sign(±inf) = ±1`. -/
def signFV : FV → FV
  | .null => .null
  | .nan => .nan
  | .pinf => .fin 1
  | .ninf => .fin (-1)
  | .fin q => .fin (if 0 < q then 1 else if q < 0 then -1 else 0)

/-- IEEE-754 float multiplication lifted to cells (`null` propagates,
`NaN` propagates, `±inf * 0 = NaN`). -/
def mulFV : FV → FV → FV
  | .null, _ => .null
  | _, .null => .null
  | .nan, _ => .nan
  | _, .nan => .nan
  | .pinf, .pinf => .pinf
  | .pinf, .ninf => .ninf
  | .ninf, .pinf => .ninf
  | .ninf, .ninf => .pinf
  | .pinf, .fin q => if 0 < q then .pinf else if q < 0 then .ninf else .nan
  | .fin q, .pinf => if 0 < q then .pinf else if q < 0 then .ninf else .nan
  | .ninf, .fin q => if 0 < q then .ninf else if q < 0 then .pinf else .nan
  | .fin q, .ninf => if 0 < q then .ninf else if q < 0 then .pinf else .nan
  | .fin p, .fin q => .fin (qmul p q)

/-- The Boolean contribution of a cell to `(expr < 0).sum()`: a `null`
comparison result is skipped by the sum (counts as `false`), `NaN < 0`
is `false` under IEEE-754. -/
def ltZeroB : FV → Bool
  | .null => false
  | .nan => false
  | .pinf => false
  | .ninf => true
  | .fin q => decide (q < 0)

/-- `deviation.abs() > t` on a cell (`null` comparison yields `null`). -/
def aboveFlag (d : FV) (t : ℚ) : Option Bool :=
  match d with
  | .null => none
  | .nan => some false
  | .pinf => some true
  | .ninf => some true
  | .fin q => some (decide (t < qabs q))

/-- `deviation.abs() < z` on a cell (`null` comparison yields `null`). -/
def neutralFlag (d : FV) (z : ℚ) : Option Bool :=
  match d with
  | .null => none
  | .nan => some false
  | .pinf => some false
  | .ninf => some false
  | .fin q => some (decide (qabs q < z))

/-- `abs(last_deviation) > t` on the Python float extracted by
`float(...)` (never `null`; `NaN` compares `false`, infinities `true`). -/
def absGtB (d : FV) (t : ℚ) : Bool :=
  match d with
  | .null => false
  | .nan => false
  | .pinf => true
  | .ninf => true
  | .fin q => decide (t < qabs q)

/-- Python truthiness of a nullable Boolean cell pulled out of
`Series.to_numpy()`: `None` is falsy. -/
def truthy (o : Option Bool) : Bool := o.getD false

/-- Python `float(x)` on a Polars scalar: `float(None)` raises `TypeError`
(modelled as `none`, caught by the blanket `except`). -/
def toFloatQ (v : FV) : Option FV :=
  if v = .null then none else some v

/-- Null-skipping of Polars aggregations. -/
def dropNull (l : List FV) : List FV :=
  l.filter (fun v => !v.isNullB)

/-- Polars `Series.max`: skips nulls, empty result is `null`; `NaN` is
greatest in the Polars float order. -/
def polarsMax (l : List FV) : FV :=
  match dropNull l with
  | [] => .null
  | h :: t => t.foldl (fun acc v => if FV.fvLe acc v then v else acc) h

/-- Polars `Series.min`: skips nulls, empty result is `null`. -/
def polarsMin (l : List FV) : FV :=
  match dropNull l with
  | [] => .null
  | h :: t => t.foldl (fun acc v => if FV.fvLe v acc then v else acc) h

/-- Polars `Series.mean`: skips nulls; an IEEE sum containing `NaN` (or both
infinities) is `NaN`, one containing a single infinity is that infinity. -/
def polarsMean (l : List FV) : FV :=
  let m := dropNull l
  if m.isEmpty then .null
  else if m.any FV.isNanB then .nan
  else if m.any FV.isPinfB && m.any FV.isNinfB then .nan
  else if m.any FV.isPinfB then .pinf
  else if m.any FV.isNinfB then .ninf
  else .fin (qdiv (qsum (m.map FV.finVal)) (m.length : ℚ))

/-- `(boolcol.mean() * 100)` followed by Python `float(...)`: the mean of a
Boolean column skips nulls; if every entry is null the mean is `null` and
`float(None)` raises (`none`). -/
def boolPct (l : List (Option Bool)) : Option ℚ :=
  let m := l.filterMap id
  if m.isEmpty then none
  else some (qmul 100 (qdiv ((m.countP (fun b => b) : ℕ) : ℚ) ((m.length : ℕ) : ℚ)))

/-- The inline zero-crossing computation of `analyze_pair_fast`
(lines 132-137): `sign * sign.shift(1) < 0`, summed; `shift(1)` prepends a
`null` and drops the last entry, and the Boolean sum skips nulls. -/
def zero_crossings_of (devs : List FV) : ℕ :=
  let s := devs.map signFV
  (s.zip (FV.null :: s)).countP (fun p => ltZeroB (mulFV p.1 p.2))

/-- `count_complete_cycles` (lines 28-42 of `analysis.py`): row-by-row scan
with the `was_above` flag and the cycle counter.  The two series are always
co-indexed columns of the same frame, so they have equal length at every
call site; the recursion stops when either list is exhausted. -/
def cccAux : List Bool → List Bool → Bool → ℕ → ℕ
  | [], _, _, c => c
  | _ :: _, [], _, c => c
  | a :: as, n :: ns, was, c =>
      if a then cccAux as ns true c
      else if n && was then cccAux as ns false (c + 1)
      else cccAux as ns was c

def count_complete_cycles (above neutral : List Bool) : ℕ :=
  cccAux above neutral false 0

/-- One row of an exchange tick series: `(timestamp, bestBid, bestAsk)`.
Timestamps are modelled in seconds (Python datetimes; `total_seconds` of a
difference is the rational difference), bids/asks as rationals (the loader
casts them to Float64 and filters nulls). -/
structure Tick where
  ts : ℚ
  bid : ℚ
  ask : ℚ
deriving DecidableEq, Repr

/-- One row of the synchronized frame produced by `join_asof`: the anchor
row's data plus the matched (or `null`) columns of the other exchange. -/
structure JRow where
  ts : ℚ
  bid1 : ℚ
  ask1 : ℚ
  bid2 : Option ℚ
  ask2 : Option ℚ
deriving DecidableEq, Repr

/-- The backward as-of match: the last row of `r` (in series order) whose
timestamp is at or before `t`.  For a timestamp-sorted `r` this is the
latest such row, exactly Polars' backward `join_asof` semantics. -/
def asofMatch (r : List Tick) (t : ℚ) : Option Tick :=
  (r.filter (fun x => decide (x.ts ≤ t))).getLast?

/-- `data1.join_asof(data2, on='timestamp')` (backward strategy): one output
row per row of `data1`; unmatched rows carry nulls in the `ex2` columns. -/
def joinAsof (l r : List Tick) : List JRow :=
  l.map (fun a =>
    match asofMatch r a.ts with
    | none => ⟨a.ts, a.bid, a.ask, none, none⟩
    | some m => ⟨a.ts, a.bid, a.ask, some m.bid, some m.ask⟩)

/-- Non-decreasing timestamps.  Polars `join_asof` requires the join key
sorted and raises `InvalidOperationError` otherwise (caught by the blanket
`except`, hence `None`). -/
def tsSortedB : List Tick → Bool
  | [] => true
  | [_] => true
  | a :: b :: t => decide (a.ts ≤ b.ts) && tsSortedB (b :: t)

/-- The deviation column of one synchronized row (lines 104-114). -/
def rowDeviation (r : JRow) : FV :=
  deviationFV (ratioFV r.bid1 r.bid2)

/-- The flat metric dictionary returned by `analyze_pair_fast`, one field
per literal dictionary key, in the key order of the Python `return`. -/
structure MetricRecord where
  max_deviation_pct : FV
  min_deviation_pct : FV
  deviation_asymmetry : FV
  zero_crossings : ℕ
  zero_crossings_per_hour : ℚ
  zero_crossings_per_minute : ℚ
  opportunity_cycles_030bp : ℕ
  cycles_030bp_per_hour : ℚ
  pct_time_above_030bp : ℚ
  avg_cycle_duration_030bp_sec : ℚ
  pattern_break_030bp : Bool
  opportunity_cycles_050bp : ℕ
  cycles_050bp_per_hour : ℚ
  pct_time_above_050bp : ℚ
  avg_cycle_duration_050bp_sec : ℚ
  pattern_break_050bp : Bool
  opportunity_cycles_040bp : ℕ
  cycles_040bp_per_hour : ℚ
  pct_time_above_040bp : ℚ
  avg_cycle_duration_040bp_sec : ℚ
  pattern_break_040bp : Bool
  data_points : ℕ
  duration_hours : ℚ
deriving DecidableEq, Repr

/-- The metric-record literal assembled at lines 208-238 of `analysis.py`,
as a function of the aggregate scalars already extracted from the joined
frame (`vmax`/`vmin`/`vmean` the deviation aggregates, `mn`/`mx` the
timestamp range, `t0`/`t1`/`t2` the three thresholds, `p0`/`p1`/`p2` the
percent-of-time-above values, `lastDev` the final deviation), together
with the derived per-hour rates, cycle counts and flags. -/
def buildRecord (n : ℕ) (devs : List FV) (zero_threshold : ℚ) (vmax vmin vmean : FV)
    (mn mx t0 t1 t2 p0 p1 p2 : ℚ) (lastDev : FV) : MetricRecord :=
  let zc := zero_crossings_of devs
  let durH := qdiv (qsub mx mn) 3600
  let zcPH := if 0 < durH then qdiv (zc : ℚ) durH else 0
  let zcPM := if 0 < durH then qdiv zcPH 60 else 0
  let above0 := devs.map (fun d => aboveFlag d t0)
  let above1 := devs.map (fun d => aboveFlag d t1)
  let above2 := devs.map (fun d => aboveFlag d t2)
  let neutral := devs.map (fun d => neutralFlag d zero_threshold)
  let c0 := count_complete_cycles (above0.map truthy) (neutral.map truthy)
  let c1 := count_complete_cycles (above1.map truthy) (neutral.map truthy)
  let c2 := count_complete_cycles (above2.map truthy) (neutral.map truthy)
  let avg0 := if 0 < c0 then qdiv (qmul (qdiv (qmul durH p0) 100) 3600) (c0 : ℚ) else 0
  let avg1 := if 0 < c1 then qdiv (qmul (qdiv (qmul durH p1) 100) 3600) (c1 : ℚ) else 0
  let avg2 := if 0 < c2 then qdiv (qmul (qdiv (qmul durH p2) 100) 3600) (c2 : ℚ) else 0
  { max_deviation_pct := vmax
    min_deviation_pct := vmin
    deviation_asymmetry := vmean
    zero_crossings := zc
    zero_crossings_per_hour := zcPH
    zero_crossings_per_minute := zcPM
    opportunity_cycles_030bp := c0
    cycles_030bp_per_hour := if 0 < durH then qdiv (c0 : ℚ) durH else 0
    pct_time_above_030bp := p0
    avg_cycle_duration_030bp_sec := avg0
    pattern_break_030bp := absGtB lastDev t0
    opportunity_cycles_050bp := c1
    cycles_050bp_per_hour := if 0 < durH then qdiv (c1 : ℚ) durH else 0
    pct_time_above_050bp := p1
    avg_cycle_duration_050bp_sec := avg1
    pattern_break_050bp := absGtB lastDev t1
    opportunity_cycles_040bp := c2
    cycles_040bp_per_hour := if 0 < durH then qdiv (c2 : ℚ) durH else 0
    pct_time_above_040bp := p2
    avg_cycle_duration_040bp_sec := avg2
    pattern_break_040bp := absGtB lastDev t2
    data_points := n
    duration_hours := durH }

/-- Body of `analyze_pair_fast` after the join (lines 102-238), as a
function of the joined frame's row count, timestamp column and deviation
column — the only parts of the frame the remaining code reads.  Each
`←`-bind is a spot where the Python can raise (caught by the blanket
`except`, modelled as `none`): `float(None)` on an all-null aggregate,
`min`/`max`/`[-1]` on an empty frame, `thresholds[i]` out of range. -/
def analyzeCore (n : ℕ) (tss : List ℚ) (devs : List FV)
    (thresholds : Option (List ℚ)) (zero_threshold : ℚ) : Option MetricRecord := do
  let vmax ← toFloatQ (polarsMax devs)
  let vmin ← toFloatQ (polarsMin devs)
  let vmean ← toFloatQ (polarsMean devs)
  let mn ← tss.min?
  let mx ← tss.max?
  let ts' := thresholds.getD [mkRat 3 10, mkRat 1 2, mkRat 2 5]
  let t0 ← ts'.get? 0
  let t1 ← ts'.get? 1
  let t2 ← ts'.get? 2
  let p0 ← boolPct (devs.map (fun d => aboveFlag d t0))
  let p1 ← boolPct (devs.map (fun d => aboveFlag d t1))
  let p2 ← boolPct (devs.map (fun d => aboveFlag d t2))
  let dl ← devs.getLast?
  let lastDev ← toFloatQ dl
  some (buildRecord n devs zero_threshold vmax vmin vmean mn mx t0 t1 t2 p0 p1 p2 lastDev)

/-- `analyze_pair_fast` after a successful join: the explicit
`joined.is_empty()` guard, then the metric computation over the joined
frame's length, timestamp column and deviation column. -/
def analyzeJoined (joined : List JRow) (thresholds : Option (List ℚ))
    (zero_threshold : ℚ) : Option MetricRecord :=
  if joined.isEmpty then none
  else analyzeCore joined.length (joined.map JRow.ts)
    (joined.map rowDeviation) thresholds zero_threshold

/-- `analyze_pair_fast` (lines 45-243).  The `symbol`/`ex1`/`ex2` string
arguments only appear in the error log message and are omitted.  An
unsorted timestamp column makes `join_asof` raise (caught → `None`). -/
def analyze_pair_fast (data1 data2 : List Tick)
    (thresholds : Option (List ℚ)) (zero_threshold : ℚ) : Option MetricRecord :=
  if tsSortedB data1 && tsSortedB data2 then
    analyzeJoined (joinAsof data1 data2) thresholds zero_threshold
  else none

/-! ### Spec-side definitions

These transcribe the specification's wording (not the code) and are only
compared against the code-derived definitions above. -/

/-- The two states of the cycle counter as the spec describes them. -/
inductive ClaimState where
  | idle
  | armed
deriving DecidableEq, Repr

/-- One transition of the spec's machine: while `above` is true the machine
stays/re-enters `ARMED` regardless of prior state; from `ARMED`, a `neutral`
row returns to `IDLE` and counts one cycle; no other row changes state or
counter. -/
def claimStep : ClaimState → Bool → Bool → ClaimState × ℕ
  | _, true, _ => (.armed, 0)
  | .armed, false, true => (.idle, 1)
  | s, false, _ => (s, 0)

def claimCyclesAux : List (Bool × Bool) → ClaimState → ℕ
  | [], _ => 0
  | (a, n) :: rest, s => (claimStep s a n).2 + claimCyclesAux rest (claimStep s a n).1

/-- Cycle count of the spec's machine, scanning the co-indexed rows in
order starting from `IDLE`. -/
def claimCycles (above neutral : List Bool) : ℕ :=
  claimCyclesAux (above.zip neutral) .idle

/-- The spec's characterization of zero-crossings: rows `i ≥ 1` with a true
sign flip against row `i - 1` (a negative product of consecutive values). -/
def specFlips (l : List ℚ) : ℕ :=
  (l.zip l.tail).countP (fun p => decide (p.1 * p.2 < 0))

/-- Crossing count relative to an explicit predecessor value. -/
def flipCount (prev : ℚ) : List ℚ → ℕ
  | [] => 0
  | x :: rest => (if prev * x < 0 then 1 else 0) + flipCount x rest

/-- Number of maximal runs of consecutive `true` in a Boolean stream;
`inRun` records whether the previous element was `true`. -/
def trueRunsAux (inRun : Bool) : List Bool → ℕ
  | [] => 0
  | b :: rest => (if b && !inRun then 1 else 0) + trueRunsAux b rest

def trueRuns (l : List Bool) : ℕ := trueRunsAux false l

/-- Final `was_above` flag of the `count_complete_cycles` scan. -/
def cccState : List Bool → List Bool → Bool → Bool
  | [], _, w => w
  | _ :: _, [], w => w
  | a :: as, n :: ns, w =>
      if a then cccState as ns true
      else if n && w then cccState as ns false
      else cccState as ns w

/-- Sortedness of a rational (timestamp) column. -/
def chainB : List ℚ → Bool
  | [] => true
  | [_] => true
  | a :: b :: t => decide (a ≤ b) && chainB (b :: t)

/-- The complete-cycle count the analyzer computes for one threshold `t`
over the synchronized deviation series of `(d1, d2)`. -/
def cyclesForThreshold (d1 d2 : List Tick) (t z : ℚ) : ℕ :=
  let devs := (joinAsof d1 d2).map rowDeviation
  count_complete_cycles ((devs.map (fun d => aboveFlag d t)).map truthy)
    ((devs.map (fun d => neutralFlag d z)).map truthy)

/-- A Python dictionary value of the returned metric record. -/
inductive MVal where
  | num (v : FV)
  | rat (q : ℚ)
  | cnt (n : ℕ)
  | flag (b : Bool)
deriving DecidableEq, Repr

/-- The literal dictionary keys of the Python `return`, in order. -/
def metricKeys : List String :=
  ["max_deviation_pct", "min_deviation_pct", "deviation_asymmetry",
   "zero_crossings", "zero_crossings_per_hour", "zero_crossings_per_minute",
   "opportunity_cycles_030bp", "cycles_030bp_per_hour", "pct_time_above_030bp",
   "avg_cycle_duration_030bp_sec", "pattern_break_030bp",
   "opportunity_cycles_050bp", "cycles_050bp_per_hour", "pct_time_above_050bp",
   "avg_cycle_duration_050bp_sec", "pattern_break_050bp",
   "opportunity_cycles_040bp", "cycles_040bp_per_hour", "pct_time_above_040bp",
   "avg_cycle_duration_040bp_sec", "pattern_break_040bp",
   "data_points", "duration_hours"]

/-- The returned dictionary, key by literal key, as built at lines 208-238:
the `030bp`/`050bp`/`040bp` suffixes are fixed text, whatever thresholds
were supplied. -/
def toDict (r : MetricRecord) : List (String × MVal) :=
  [("max_deviation_pct", .num r.max_deviation_pct),
   ("min_deviation_pct", .num r.min_deviation_pct),
   ("deviation_asymmetry", .num r.deviation_asymmetry),
   ("zero_crossings", .cnt r.zero_crossings),
   ("zero_crossings_per_hour", .rat r.zero_crossings_per_hour),
   ("zero_crossings_per_minute", .rat r.zero_crossings_per_minute),
   ("opportunity_cycles_030bp", .cnt r.opportunity_cycles_030bp),
   ("cycles_030bp_per_hour", .rat r.cycles_030bp_per_hour),
   ("pct_time_above_030bp", .rat r.pct_time_above_030bp),
   ("avg_cycle_duration_030bp_sec", .rat r.avg_cycle_duration_030bp_sec),
   ("pattern_break_030bp", .flag r.pattern_break_030bp),
   ("opportunity_cycles_050bp", .cnt r.opportunity_cycles_050bp),
   ("cycles_050bp_per_hour", .rat r.cycles_050bp_per_hour),
   ("pct_time_above_050bp", .rat r.pct_time_above_050bp),
   ("avg_cycle_duration_050bp_sec", .rat r.avg_cycle_duration_050bp_sec),
   ("pattern_break_050bp", .flag r.pattern_break_050bp),
   ("opportunity_cycles_040bp", .cnt r.opportunity_cycles_040bp),
   ("cycles_040bp_per_hour", .rat r.cycles_040bp_per_hour),
   ("pct_time_above_040bp", .rat r.pct_time_above_040bp),
   ("avg_cycle_duration_040bp_sec", .rat r.avg_cycle_duration_040bp_sec),
   ("pattern_break_040bp", .flag r.pattern_break_040bp),
   ("data_points", .cnt r.data_points),
   ("duration_hours", .rat r.duration_hours)]

/-! ### Concrete inputs used by witnesses and counterexamples -/

/-- Equal bids on both venues with a rising absolute level; asks differ. -/
def d1eq : List Tick := [⟨0, 100, 101⟩, ⟨10, 200, 201⟩]

def d2eq : List Tick := [⟨0, 100, 99⟩, ⟨10, 200, 199⟩]

/-- Anchor with a zero bid on the second venue's matching first row. -/
def d1zero : List Tick := [⟨0, 1, 1⟩, ⟨60, 1, 1⟩]

def d2zero : List Tick := [⟨0, 0, 1⟩, ⟨60, 1, 1⟩]

/-- A one-row pair: a single shared timestamp, hence zero duration. -/
def d1one : List Tick := [⟨0, 2, 3⟩]

def d2one : List Tick := [⟨0, 1, 1⟩]

/-- A one-row anchor and a two-row secondary series for the as-of join. -/
def l4w : List Tick := [⟨5, 1, 1⟩]

def r4w : List Tick := [⟨0, 2, 2⟩, ⟨3, 3, 3⟩]

/-- Pairs of series agreeing on timestamps and bids, differing in asks. -/
def d1ask : List Tick := [⟨0, 1, 5⟩]

def d1ask' : List Tick := [⟨0, 1, 9⟩]

def d2ask : List Tick := [⟨0, 1, 7⟩]

def d2ask' : List Tick := [⟨0, 1, 2⟩]

/-! ## Theorems -/

/-! ### The `mkRat`-based arithmetic agrees with the field operations -/

theorem qadd_eq (a b : ℚ) : qadd a b = a + b := by
  have ha : (a.den : ℚ) ≠ 0 := Nat.cast_ne_zero.mpr a.den_nz
  have hb : (b.den : ℚ) ≠ 0 := Nat.cast_ne_zero.mpr b.den_nz
  rw [qadd, Rat.mkRat_eq_div]
  conv_rhs => rw [← Rat.num_div_den a, ← Rat.num_div_den b, div_add_div _ _ ha hb]
  push_cast
  ring_nf

theorem qsub_eq (a b : ℚ) : qsub a b = a - b := by
  have ha : (a.den : ℚ) ≠ 0 := Nat.cast_ne_zero.mpr a.den_nz
  have hb : (b.den : ℚ) ≠ 0 := Nat.cast_ne_zero.mpr b.den_nz
  rw [qsub, Rat.mkRat_eq_div]
  conv_rhs => rw [← Rat.num_div_den a, ← Rat.num_div_den b, div_sub_div _ _ ha hb]
  push_cast
  ring_nf

theorem qmul_eq (a b : ℚ) : qmul a b = a * b := by
  rw [qmul, Rat.mkRat_eq_div]
  conv_rhs => rw [← Rat.num_div_den a, ← Rat.num_div_den b, div_mul_div_comm]
  push_cast
  ring_nf

theorem qdiv_eq (a b : ℚ) : qdiv a b = a / b := by
  by_cases hb0 : b = 0
  · subst hb0
    rw [qdiv]
    norm_num
  · have hbnum : b.num ≠ 0 := Rat.num_ne_zero.mpr hb0
    have ha : (a.den : ℚ) ≠ 0 := Nat.cast_ne_zero.mpr a.den_nz
    have hd : (b.den : ℚ) ≠ 0 := Nat.cast_ne_zero.mpr b.den_nz
    have hbn : (b.num : ℚ) ≠ 0 := Int.cast_ne_zero.mpr hbnum
    rcases lt_or_le 0 b.num with hpos | hneg
    · rw [qdiv, if_pos hpos.le, Rat.mkRat_eq_div]
      have ht : ((b.num.toNat * a.den : ℕ) : ℚ) = (b.num : ℚ) * (a.den : ℚ) := by
        rw [Nat.cast_mul]
        congr 1
        rw [← Int.cast_natCast, Int.toNat_of_nonneg hpos.le]
      rw [ht]
      push_cast
      conv_rhs => rw [← Rat.num_div_den a, ← Rat.num_div_den b]
      rw [div_div_div_comm, div_div_eq_mul_div, div_mul_eq_mul_div, div_div]
    · have hlt : b.num < 0 := lt_of_le_of_ne hneg hbnum
      rw [qdiv, if_neg (not_le.mpr hlt), Rat.mkRat_eq_div]
      have ht : (((-b.num).toNat * a.den : ℕ) : ℚ) = -(b.num : ℚ) * (a.den : ℚ) := by
        rw [Nat.cast_mul]
        congr 1
        rw [← Int.cast_natCast, Int.toNat_of_nonneg (neg_nonneg.mpr hlt.le), Int.cast_neg]
      rw [ht]
      push_cast
      rw [neg_mul, neg_div_neg_eq]
      conv_rhs => rw [← Rat.num_div_den a, ← Rat.num_div_den b]
      rw [div_div_div_comm, div_div_eq_mul_div, div_mul_eq_mul_div, div_div]

theorem qabs_eq (a : ℚ) : qabs a = |a| := by
  rw [qabs, Rat.mkRat_eq_div]
  conv_rhs => rw [← Rat.num_div_den a]
  rw [abs_div, abs_of_nonneg (show (0:ℚ) ≤ (a.den : ℚ) from Nat.cast_nonneg _)]
  congr 1
  push_cast [Int.cast_natAbs]
  rfl

theorem qsum_eq (l : List ℚ) : qsum l = l.sum := by
  induction l with
  | nil => rfl
  | cons x rest ih => simp [qsum, qadd_eq, List.sum_cons] at ih ⊢; rw [ih]

/-! ### The cycle counter and the spec's two-state machine -/

theorem cccAux_eq_claim (a : List Bool) : ∀ (n : List Bool) (was : Bool) (c : ℕ),
    cccAux a n was c
      = c + claimCyclesAux (a.zip n) (if was then .armed else .idle) := by
  induction a with
  | nil => intro n was c; simp [cccAux, claimCyclesAux]
  | cons x as ih =>
    intro n was c
    cases n with
    | nil => simp [cccAux, claimCyclesAux]
    | cons y ns =>
      cases x
      · cases was
        · cases y <;> simp [cccAux, claimCyclesAux, claimStep, List.zip, ih]
        · cases y
          · simp [cccAux, claimCyclesAux, claimStep, List.zip, ih]
          · simp [cccAux, claimCyclesAux, claimStep, List.zip, ih]
            omega
      · cases was <;> simp [cccAux, claimCyclesAux, claimStep, List.zip, ih]

/-- C2: `count_complete_cycles` implements the two-state machine scanned
row by row in order (IDLE/ARMED, arming whenever `above[i]` holds, counting
one cycle and disarming when `neutral[i]` holds in state ARMED, no other
row changing state or counter), and returns 1, 2, 0, 0 on the four
scenario inputs of the spec. -/
theorem count_complete_cycles_is_claim_machine :
    (∀ (above neutral : List Bool), above.length = neutral.length →
        count_complete_cycles above neutral = claimCycles above neutral)
    ∧ count_complete_cycles [false, true, true, false] [true, false, false, true] = 1
    ∧ count_complete_cycles [false, true, false, true, false]
        [true, false, true, false, true] = 2
    ∧ count_complete_cycles [true, true, true] [false, false, false] = 0
    ∧ count_complete_cycles [false, false, false] [true, true, true] = 0 := by
  refine ⟨fun a n _ => ?_, by decide, by decide, by decide, by decide⟩
  simpa [count_complete_cycles, claimCycles] using cccAux_eq_claim a n false 0

/-- Witness for C2 at the first scenario input. -/
theorem count_complete_cycles_is_claim_machine_witness :
    ([false, true, true, false] : List Bool).length
        = ([true, false, false, true] : List Bool).length
    ∧ count_complete_cycles [false, true, true, false] [true, false, false, true]
        = claimCycles [false, true, true, false] [true, false, false, true] :=
  ⟨by decide, count_complete_cycles_is_claim_machine.1 _ _ (by decide)⟩

/-! ### Algebraic properties of the cycle counter (C8) -/

theorem cccAux_acc (a : List Bool) : ∀ (n : List Bool) (w : Bool) (c : ℕ),
    cccAux a n w c = c + cccAux a n w 0 := by
  induction a with
  | nil => intro n w c; simp [cccAux]
  | cons x as ih =>
    intro n w c
    cases n with
    | nil => simp [cccAux]
    | cons y ns =>
      cases x
      · by_cases hw : (y && w) = true
        · simp only [cccAux, Bool.false_eq_true, if_false, hw, if_true]
          rw [ih ns false (c + 1), ih ns false (0 + 1)]
          omega
        · simp only [cccAux, Bool.false_eq_true, if_false, hw]
          exact ih ns w c
      · simp only [cccAux, if_true]
        exact ih ns true c

theorem cccAux_append (a1 : List Bool) : ∀ (n1 a2 n2 : List Bool) (w : Bool) (c : ℕ),
    a1.length = n1.length →
    cccAux (a1 ++ a2) (n1 ++ n2) w c
      = cccAux a2 n2 (cccState a1 n1 w) (cccAux a1 n1 w c) := by
  induction a1 with
  | nil =>
    intro n1 a2 n2 w c h
    have : n1 = [] := List.eq_nil_of_length_eq_zero h.symm
    subst this
    simp [cccAux, cccState]
  | cons x as ih =>
    intro n1 a2 n2 w c h
    cases n1 with
    | nil => simp at h
    | cons y ns =>
      have h' : as.length = ns.length := by simpa using h
      cases x
      · by_cases hw : (y && w) = true
        · simp only [List.cons_append, cccAux, cccState, Bool.false_eq_true, if_false, hw,
            if_true]
          exact ih ns a2 n2 false (c + 1) h'
        · simp only [List.cons_append, cccAux, cccState, Bool.false_eq_true, if_false, hw]
          exact ih ns a2 n2 w c h'
      · simp only [List.cons_append, cccAux, cccState, if_true]
        exact ih ns a2 n2 true c h'

theorem cccAux_all_false_neutral (a : List Bool) :
    ∀ (n : List Bool) (w : Bool) (c : ℕ), (∀ b ∈ n, b = false) →
    cccAux a n w c = c := by
  induction a with
  | nil => intro n w c _; simp [cccAux]
  | cons x as ih =>
    intro n w c h
    cases n with
    | nil => simp [cccAux]
    | cons y ns =>
      have hy : y = false := h y (List.mem_cons_self y ns)
      have hns : ∀ b ∈ ns, b = false := fun b hb => h b (List.mem_cons_of_mem _ hb)
      subst hy
      cases x
      · simp only [cccAux, Bool.false_eq_true, if_false, Bool.false_and]
        exact ih ns w c hns
      · simp only [cccAux, if_true]
        exact ih ns true c hns

theorem trueRunsAux_le_false (l : List Bool) : ∀ b, trueRunsAux b l ≤ trueRunsAux false l := by
  induction l with
  | nil => intro b; simp [trueRunsAux]
  | cons x rest ih =>
    intro b
    cases b
    · exact le_refl _
    · cases x <;> simp [trueRunsAux]

theorem cccAux_le_runs (a : List Bool) : ∀ (n : List Bool) (w : Bool),
    cccAux a n w 0 ≤ (if w then 1 else 0) + trueRunsAux w a := by
  induction a with
  | nil => intro n w; simp [cccAux, trueRunsAux]
  | cons x as ih =>
    intro n w
    cases n with
    | nil => simp [cccAux]
    | cons y ns =>
      cases x
      · by_cases hw : (y && w) = true
        · have hwt : w = true := by
            cases w
            · simp at hw
            · rfl
          subst hwt
          simp only [cccAux, Bool.false_eq_true, if_false, hw, if_true]
          rw [cccAux_acc as ns false 1]
          have := ih ns false
          simp only [trueRunsAux, Bool.false_and, Bool.and_false, if_false] at *
          omega
        · simp only [cccAux, Bool.false_eq_true, if_false, hw]
          have h1 := ih ns w
          have h2 := trueRunsAux_le_false as w
          have h3 := trueRunsAux_le_false as false
          cases w <;>
            simp only [trueRunsAux, Bool.false_and, Bool.and_false, Bool.false_eq_true,
              if_false, if_true] at * <;>
          omega
      · simp only [cccAux, if_true]
        have h1 := ih ns true
        cases w <;>
          simp only [trueRunsAux, Bool.true_and, Bool.and_true, Bool.not_false, Bool.not_true,
            Bool.false_eq_true, if_false, if_true] at * <;>
        omega

/-- C8: on equal-length input streams the cycle counter is deterministic,
bounded by the number of maximal `true` runs of `above`, and unchanged by
appending any suffix whose `neutral` flags are all `false` (a trailing
excursion that never returns to the neutral band contributes nothing). -/
theorem count_complete_cycles_algebraic :
    ∀ (above neutral : List Bool), above.length = neutral.length →
      (count_complete_cycles above neutral = count_complete_cycles above neutral)
      ∧ count_complete_cycles above neutral ≤ trueRuns above
      ∧ ∀ (a2 n2 : List Bool), (∀ b ∈ n2, b = false) →
          count_complete_cycles (above ++ a2) (neutral ++ n2)
            = count_complete_cycles above neutral := by
  intro a n h
  refine ⟨rfl, ?_, ?_⟩
  · simpa [count_complete_cycles, trueRuns] using cccAux_le_runs a n false
  · intro a2 n2 h2
    rw [count_complete_cycles, cccAux_append a n a2 n2 false 0 h,
      cccAux_all_false_neutral a2 n2 _ _ h2]
    rfl

/-! ### Zero-crossings count true sign flips (C3) -/

theorem sign_flip_iff (x p : ℚ) :
    (qmul (if 0 < x then (1:ℚ) else if x < 0 then -1 else 0)
        (if 0 < p then (1:ℚ) else if p < 0 then -1 else 0) < 0) ↔ p * x < 0 := by
  rw [qmul_eq]
  rcases lt_trichotomy x 0 with hx | hx | hx
  · rcases lt_trichotomy p 0 with hp | hp | hp
    · rw [if_neg (asymm hx), if_pos hx, if_neg (asymm hp), if_pos hp]
      norm_num
      nlinarith
    · subst hp
      norm_num
    · rw [if_neg (asymm hx), if_pos hx, if_pos hp]
      norm_num
      nlinarith
  · subst hx
    norm_num
  · rcases lt_trichotomy p 0 with hp | hp | hp
    · rw [if_pos hx, if_neg (asymm hp), if_pos hp]
      norm_num
      nlinarith
    · subst hp
      norm_num
    · rw [if_pos hx, if_pos hp]
      norm_num
      nlinarith

theorem sign_mul_ltZeroB (x prev : ℚ) :
    ltZeroB (mulFV (signFV (FV.fin x)) (signFV (FV.fin prev)))
      = decide (prev * x < 0) := by
  simp only [signFV, mulFV, ltZeroB]
  exact decide_eq_decide.mpr (sign_flip_iff x prev)

theorem zcPairs_eq_flip (l : List ℚ) : ∀ prev : ℚ,
    ((l.map (fun q => signFV (FV.fin q))).zip
        (signFV (FV.fin prev) :: l.map (fun q => signFV (FV.fin q)))).countP
      (fun p => ltZeroB (mulFV p.1 p.2)) = flipCount prev l := by
  induction l with
  | nil => intro prev; simp [flipCount]
  | cons x rest ih =>
    intro prev
    simp only [List.map_cons, List.zip_cons_cons, List.countP_cons, flipCount]
    rw [ih x, sign_mul_ltZeroB x prev]
    simp only [decide_eq_true_eq]
    omega

theorem specFlips_eq_flipCount (rest : List ℚ) : ∀ a : ℚ,
    specFlips (a :: rest) = flipCount a rest := by
  induction rest with
  | nil => intro a; rfl
  | cons x rs ih =>
    intro a
    have ih' := ih x
    simp only [specFlips, List.tail_cons, List.zip_cons_cons, List.countP_cons] at ih' ⊢
    rw [ih']
    simp only [flipCount, decide_eq_true_eq]
    omega

theorem zero_crossings_of_cons (x : ℚ) (rest : List ℚ) :
    zero_crossings_of ((x :: rest).map FV.fin)
      = ((rest.map (fun q => signFV (FV.fin q))).zip
          (signFV (FV.fin x) :: rest.map (fun q => signFV (FV.fin q)))).countP
        (fun p => ltZeroB (mulFV p.1 p.2)) := by
  simp only [zero_crossings_of, List.map_cons, List.map_map, List.zip_cons_cons,
    List.countP_cons, Function.comp]
  have : ltZeroB (mulFV (signFV (FV.fin x)) FV.null) = false := by
    simp [signFV, mulFV, ltZeroB]
  rw [this]
  simp only [Bool.false_eq_true, if_false, add_zero, Function.comp_def]

/-- C3: the `zero_crossings` metric counts exactly the rows `i ≥ 1` with
`sign(deviation[i]) * sign(deviation[i-1]) < 0`, a true sign flip of
consecutive rows; a one-row series has no crossing (the first row has no
predecessor), and a pass through the boundary that lands exactly on zero is
counted zero times — in particular never twice. -/
theorem zero_crossings_counts_sign_flips :
    (∀ l : List ℚ, zero_crossings_of (l.map FV.fin) = specFlips l)
    ∧ (∀ x : ℚ, zero_crossings_of [FV.fin x] = 0)
    ∧ (∀ a b : ℚ, zero_crossings_of ([a, 0, b].map FV.fin) = 0) := by
  have main : ∀ l : List ℚ, zero_crossings_of (l.map FV.fin) = specFlips l := by
    intro l
    cases l with
    | nil => rfl
    | cons x rest =>
      rw [zero_crossings_of_cons, zcPairs_eq_flip rest x, specFlips_eq_flipCount]
  refine ⟨main, ?_, ?_⟩
  · intro x
    exact (main [x]).trans rfl
  · intro a b
    rw [main]
    simp [specFlips, List.zip, List.countP_cons]

/-! ### Null rows are excluded from aggregates; zero denominators are not (C5) -/

/-- C5 (amended): a synchronized row with a `null` `bid_ex2` (no series-2
observation at or before its timestamp) has a `null` deviation, and `null`
entries are skipped by every aggregate (max, min, mean, Boolean percentage)
without invalidating the rest of the series; but a row whose `bid_ex2` is
zero is NOT excluded: its deviation is `+∞` (for a positive numerator),
which is not `null` and therefore participates in the aggregates. -/
theorem null_rows_skipped_zero_denominator_kept :
    (∀ r : JRow, r.bid2 = none → rowDeviation r = FV.null)
    ∧ (∀ l : List FV, polarsMax (FV.null :: l) = polarsMax l
        ∧ polarsMin (FV.null :: l) = polarsMin l
        ∧ polarsMean (FV.null :: l) = polarsMean l)
    ∧ (∀ l : List (Option Bool), boolPct (none :: l) = boolPct l)
    ∧ (∀ r : JRow, r.bid2 = some 0 → 0 < r.bid1 →
        rowDeviation r = FV.pinf ∧ ∀ l : List FV,
          dropNull (FV.pinf :: l) = FV.pinf :: dropNull l) := by
  refine ⟨?_, ?_, ?_, ?_⟩
  · intro r h
    simp [rowDeviation, ratioFV, h, deviationFV]
  · intro l
    refine ⟨?_, ?_, ?_⟩ <;> simp [polarsMax, polarsMin, polarsMean, dropNull, FV.isNullB]
  · intro l
    simp [boolPct, List.filterMap_cons]
  · intro r h hpos
    constructor
    · simp [rowDeviation, ratioFV, h, hpos, deviationFV]
    · intro l
      simp [dropNull, FV.isNullB]

/-- Witness for C5 (amended) at a concrete synchronized row and list. -/
theorem null_rows_skipped_zero_denominator_kept_witness :
    rowDeviation ⟨0, 1, 1, none, none⟩ = FV.null
    ∧ polarsMax [FV.null, FV.fin 7] = polarsMax [FV.fin 7]
    ∧ rowDeviation ⟨0, 1, 1, some 0, some 0⟩ = FV.pinf :=
  ⟨null_rows_skipped_zero_denominator_kept.1 ⟨0, 1, 1, none, none⟩ rfl,
   (null_rows_skipped_zero_denominator_kept.2.1 [FV.fin 7]).1,
   (null_rows_skipped_zero_denominator_kept.2.2.2 ⟨0, 1, 1, some 0, some 0⟩ rfl
      (by norm_num)).1⟩

/-- Counterexample to C5 as stated: with `d2zero`'s first row carrying a
zero bid, the synchronized series holds a zero-denominator row whose
deviation is `+∞`; that row is NOT excluded from the aggregates — the
returned `max_deviation_pct` is `+∞` and the spurious row completes one
`030bp` opportunity cycle, whereas excluding it would give max `0` (the
only other deviation) and no cycle. -/
theorem zero_denominator_row_enters_aggregates :
    (joinAsof d1zero d2zero).map JRow.bid2 = [some 0, some 1]
    ∧ (joinAsof d1zero d2zero).map rowDeviation = [FV.pinf, FV.fin 0]
    ∧ (analyze_pair_fast d1zero d2zero none (mkRat 1 20)).map
        MetricRecord.max_deviation_pct = some FV.pinf
    ∧ (analyze_pair_fast d1zero d2zero none (mkRat 1 20)).map
        MetricRecord.opportunity_cycles_030bp = some 1
    ∧ polarsMax [FV.fin 0] = FV.fin 0
    ∧ count_complete_cycles [false] [true] = 0 := by
  refine ⟨by decide, by decide, by decide, by decide, by decide, by decide⟩

/-! ### Backward as-of join semantics (C4) -/

theorem tsSortedB_pairwise : ∀ l : List Tick, tsSortedB l = true →
    List.Pairwise (fun a b => a.ts ≤ b.ts) l := by
  intro l
  induction l with
  | nil => intro _; exact List.Pairwise.nil
  | cons a t ih =>
    cases t with
    | nil => intro _; simp
    | cons b t2 =>
      intro h
      simp only [tsSortedB, Bool.and_eq_true, decide_eq_true_eq] at h
      have hp := ih h.2
      refine List.Pairwise.cons ?_ hp
      intro x hx
      rcases List.mem_cons.mp hx with rfl | hx2
      · exact h.1
      · exact le_trans h.1 (List.rel_of_pairwise_cons hp hx2)

theorem pairwise_getLast_max : ∀ (l : List Tick),
    List.Pairwise (fun a b => a.ts ≤ b.ts) l →
    ∀ m : Tick, l.getLast? = some m → ∀ x ∈ l, x.ts ≤ m.ts := by
  intro l
  induction l with
  | nil => intro _ m hm; simp at hm
  | cons a t ih =>
    cases t with
    | nil =>
      intro _ m hm x hx
      simp only [List.getLast?_singleton, Option.some.injEq] at hm
      rcases List.mem_singleton.mp hx with rfl
      rw [hm]
    | cons b t2 =>
      intro hp m hm x hx
      rw [List.getLast?_cons_cons] at hm
      have hmem : m ∈ b :: t2 := List.mem_of_mem_getLast? hm
      rcases List.mem_cons.mp hx with rfl | hx2
      · exact List.rel_of_pairwise_cons hp hmem
      · exact ih (List.Pairwise.of_cons hp) m hm x hx2

/-- C4: the backward as-of join pairs each row of the anchor `l` with the
latest row of the (timestamp-sorted) series `r` at or before its timestamp:
the result has exactly one row per anchor row, preserves the anchor's
timestamp column, never matches a strictly later `r` row, always matches
the latest eligible one, and leaves a row unmatched only when `r` has no
observation at or before that timestamp. -/
theorem joinAsof_backward_semantics (l r : List Tick) (hr : tsSortedB r = true) :
    (joinAsof l r).length = l.length
    ∧ (joinAsof l r).map JRow.ts = l.map Tick.ts
    ∧ (∀ a ∈ l, ∀ m : Tick, asofMatch r a.ts = some m →
        m.ts ≤ a.ts ∧ m ∈ r ∧ ∀ x ∈ r, x.ts ≤ a.ts → x.ts ≤ m.ts)
    ∧ (∀ a ∈ l, asofMatch r a.ts = none → ∀ x ∈ r, ¬ x.ts ≤ a.ts) := by
  refine ⟨by simp [joinAsof], ?_, ?_, ?_⟩
  · rw [joinAsof, List.map_map]
    refine List.map_congr_left ?_
    intro a _
    rcases h : asofMatch r a.ts with _ | m <;> simp [h]
  · intro a _ m hm
    have hmem := List.mem_of_mem_getLast? hm
    have hf := List.mem_filter.mp hmem
    refine ⟨by simpa using hf.2, hf.1, ?_⟩
    intro x hx hxa
    have hpf := (tsSortedB_pairwise r hr).filter (fun y => decide (y.ts ≤ a.ts))
    exact pairwise_getLast_max _ hpf m hm x
      (List.mem_filter.mpr ⟨hx, by simpa using hxa⟩)
  · intro a _ hnone x hx hxa
    have : r.filter (fun y => decide (y.ts ≤ a.ts)) = [] := by
      simpa [asofMatch, List.getLast?_eq_none_iff] using hnone
    have hlt := List.filter_eq_nil_iff.mp this x hx
    simp at hlt
    exact absurd hxa hlt.not_le

/-- Witness for C4 at a concrete sorted pair of series. -/
theorem joinAsof_backward_semantics_witness :
    tsSortedB r4w = true
    ∧ (joinAsof l4w r4w).length = l4w.length
    ∧ asofMatch r4w (5:ℚ) = some ⟨3, 3, 3⟩
    ∧ ((3:ℚ) ≤ 5 ∧ (⟨3, 3, 3⟩ : Tick) ∈ r4w
        ∧ ∀ x ∈ r4w, x.ts ≤ (5:ℚ) → x.ts ≤ (3:ℚ)) := by
  have h := joinAsof_backward_semantics l4w r4w (by decide)
  refine ⟨by decide, h.1, by decide, ?_⟩
  have h3 := h.2.2.1 ⟨5, 1, 1⟩ (by decide) ⟨3, 3, 3⟩ (by decide)
  exact h3

/-! ### Empty inputs give `none` (C6) and inversion of a successful run -/

theorem polarsMax_all_null (devs : List FV) (h : ∀ v ∈ devs, v = FV.null) :
    polarsMax devs = FV.null := by
  have : dropNull devs = [] := by
    rw [dropNull, List.filter_eq_nil_iff]
    intro v hv
    simp [h v hv, FV.isNullB]
  rw [polarsMax, this]

theorem analyzeCore_none_of_max_null (n : ℕ) (tss : List ℚ) (devs : List FV)
    (th : Option (List ℚ)) (z : ℚ) (h : polarsMax devs = FV.null) :
    analyzeCore n tss devs th z = none := by
  have hnone : toFloatQ (polarsMax devs) = none := by rw [h]; rfl
  simp only [analyzeCore, bind, hnone, Option.none_bind]

/-- C6: whenever either input series is empty — and more generally whenever
the synchronized series is empty — `analyze_pair_fast` returns `None` to
its caller; in the embedding the body is total with exceptions modelled as
`none`, so no exception escapes. -/
theorem analyze_pair_fast_none_on_empty (d1 d2 : List Tick)
    (th : Option (List ℚ)) (z : ℚ)
    (h : d1 = [] ∨ d2 = [] ∨ joinAsof d1 d2 = []) :
    analyze_pair_fast d1 d2 th z = none := by
  simp only [analyze_pair_fast]
  by_cases hs : (tsSortedB d1 && tsSortedB d2) = true
  · rw [if_pos hs]
    rcases h with h | h | h
    · subst h; rfl
    · subst h
      cases hd1 : d1 with
      | nil => rfl
      | cons a t =>
        rw [analyzeJoined, if_neg (by simp [joinAsof])]
        apply analyzeCore_none_of_max_null
        apply polarsMax_all_null
        intro v hv
        obtain ⟨r, hr, rfl⟩ := List.mem_map.mp hv
        obtain ⟨x, _, rfl⟩ := List.mem_map.mp hr
        simp [asofMatch, rowDeviation, ratioFV, deviationFV]
    · rw [h]; rfl
  · rw [if_neg hs]

/-- Witness for C6: an empty first series gives `none`. -/
theorem analyze_pair_fast_none_on_empty_witness :
    analyze_pair_fast [] d2one none (mkRat 1 20) = none :=
  analyze_pair_fast_none_on_empty [] d2one none (mkRat 1 20) (Or.inl rfl)

/-- Inverting a successful `analyze_pair_fast` run: the sortedness check
passed, the joined frame is non-empty, and the core computation succeeded
on the joined frame's length, timestamp column and deviation column. -/
theorem analyze_pair_fast_some_inv {d1 d2 : List Tick} {th : Option (List ℚ)}
    {z : ℚ} {rec : MetricRecord} (h : analyze_pair_fast d1 d2 th z = some rec) :
    (tsSortedB d1 && tsSortedB d2) = true
    ∧ (joinAsof d1 d2).isEmpty = false
    ∧ analyzeCore (joinAsof d1 d2).length ((joinAsof d1 d2).map JRow.ts)
        ((joinAsof d1 d2).map rowDeviation) th z = some rec := by
  by_cases hs : (tsSortedB d1 && tsSortedB d2) = true
  · rw [analyze_pair_fast, if_pos hs, analyzeJoined] at h
    by_cases he : (joinAsof d1 d2).isEmpty
    · rw [if_pos he] at h
      exact absurd h (by simp)
    · rw [if_neg he] at h
      exact ⟨hs, by simpa using he, h⟩
  · rw [analyze_pair_fast, if_neg hs] at h
    exact absurd h (by simp)

theorem option_bind_some_inv {α β : Type} {o : Option α} {f : α → Option β} {b : β}
    (h : o >>= f = some b) : ∃ a, o = some a ∧ f a = some b := by
  cases o with
  | none => exact absurd h (by simp)
  | some a => exact ⟨a, rfl, by simpa using h⟩

set_option maxHeartbeats 1000000 in
/-- Inverting the core computation: every `←`-bound aggregate succeeded and
the record is the literal built from the extracted scalars. -/
theorem analyzeCore_some_inv {n : ℕ} {tss : List ℚ} {devs : List FV}
    {th : Option (List ℚ)} {z : ℚ} {rec : MetricRecord}
    (h : analyzeCore n tss devs th z = some rec) :
    ∃ (vmax vmin vmean : FV) (mn mx t0 t1 t2 p0 p1 p2 : ℚ) (dl lastDev : FV),
      toFloatQ (polarsMax devs) = some vmax
      ∧ toFloatQ (polarsMin devs) = some vmin
      ∧ toFloatQ (polarsMean devs) = some vmean
      ∧ tss.min? = some mn
      ∧ tss.max? = some mx
      ∧ (th.getD [mkRat 3 10, mkRat 1 2, mkRat 2 5]).get? 0 = some t0
      ∧ (th.getD [mkRat 3 10, mkRat 1 2, mkRat 2 5]).get? 1 = some t1
      ∧ (th.getD [mkRat 3 10, mkRat 1 2, mkRat 2 5]).get? 2 = some t2
      ∧ boolPct (devs.map (fun d => aboveFlag d t0)) = some p0
      ∧ boolPct (devs.map (fun d => aboveFlag d t1)) = some p1
      ∧ boolPct (devs.map (fun d => aboveFlag d t2)) = some p2
      ∧ devs.getLast? = some dl
      ∧ toFloatQ dl = some lastDev
      ∧ rec = buildRecord n devs z vmax vmin vmean mn mx t0 t1 t2 p0 p1 p2 lastDev := by
  rw [analyzeCore] at h
  obtain ⟨vmax, hvmax, h⟩ := option_bind_some_inv h
  obtain ⟨vmin, hvmin, h⟩ := option_bind_some_inv h
  try dsimp only at h
  obtain ⟨vmean, hvmean, h⟩ := option_bind_some_inv h
  try dsimp only at h
  obtain ⟨mn, hmn, h⟩ := option_bind_some_inv h
  try dsimp only at h
  obtain ⟨mx, hmx, h⟩ := option_bind_some_inv h
  try dsimp only at h
  obtain ⟨t0, ht0, h⟩ := option_bind_some_inv h
  try dsimp only at h
  obtain ⟨t1, ht1, h⟩ := option_bind_some_inv h
  try dsimp only at h
  obtain ⟨t2, ht2, h⟩ := option_bind_some_inv h
  try dsimp only at h
  obtain ⟨p0, hp0, h⟩ := option_bind_some_inv h
  try dsimp only at h
  obtain ⟨p1, hp1, h⟩ := option_bind_some_inv h
  try dsimp only at h
  obtain ⟨p2, hp2, h⟩ := option_bind_some_inv h
  try dsimp only at h
  obtain ⟨dl, hdl, h⟩ := option_bind_some_inv h
  try dsimp only at h
  obtain ⟨lastDev, hld, h⟩ := option_bind_some_inv h
  exact ⟨vmax, vmin, vmean, mn, mx, t0, t1, t2, p0, p1, p2, dl, lastDev,
    hvmax, hvmin, hvmean, hmn, hmx, ht0, ht1, ht2, hp0, hp1, hp2, hdl, hld,
    (Option.some.injEq _ _ ▸ h).symm⟩

/-! ### Deviation measured from parity (C1) -/

theorem dropNull_of_no_null (l : List FV) (h : ∀ v ∈ l, v ≠ FV.null) :
    dropNull l = l := by
  rw [dropNull, List.filter_eq_self]
  intro v hv
  have := h v hv
  cases v <;> simp_all [FV.isNullB]

theorem foldl_fin0 (f : FV → FV → FV) (hf : f (FV.fin 0) (FV.fin 0) = FV.fin 0) :
    ∀ t : List FV, (∀ v ∈ t, v = FV.fin 0) → t.foldl f (FV.fin 0) = FV.fin 0 := by
  intro t
  induction t with
  | nil => intro _; rfl
  | cons x xs ih =>
    intro h
    have hx : x = FV.fin 0 := h x (List.mem_cons_self x xs)
    subst hx
    simp only [List.foldl_cons, hf]
    exact ih (fun v hv => h v (List.mem_cons_of_mem _ hv))

theorem polars_aggregates_fin0 (l : List FV) (hne : l ≠ [])
    (h : ∀ v ∈ l, v = FV.fin 0) :
    polarsMax l = FV.fin 0 ∧ polarsMin l = FV.fin 0 ∧ polarsMean l = FV.fin 0 := by
  have hd : dropNull l = l :=
    dropNull_of_no_null l (fun v hv => by rw [h v hv]; simp)
  cases hl : l with
  | nil => exact absurd hl hne
  | cons x xs =>
    subst hl
    have hx : x = FV.fin 0 := h x (List.mem_cons_self x xs)
    have hxs : ∀ v ∈ xs, v = FV.fin 0 := fun v hv => h v (List.mem_cons_of_mem _ hv)
    refine ⟨?_, ?_, ?_⟩
    · rw [polarsMax, hd, hx]
      exact foldl_fin0 _ (by simp [FV.fvLe]) xs hxs
    · rw [polarsMin, hd, hx]
      exact foldl_fin0 _ (by simp [FV.fvLe]) xs hxs
    · rw [polarsMean]
      simp only [hd]
      have hnan : (x :: xs).any FV.isNanB = false := by
        rw [List.any_eq_false]
        intro v hv
        rw [h v hv]
        simp [FV.isNanB]
      have hpinf : (x :: xs).any FV.isPinfB = false := by
        rw [List.any_eq_false]
        intro v hv
        rw [h v hv]
        simp [FV.isPinfB]
      have hninf : (x :: xs).any FV.isNinfB = false := by
        rw [List.any_eq_false]
        intro v hv
        rw [h v hv]
        simp [FV.isNinfB]
      have hsum : ((x :: xs).map FV.finVal).sum = 0 := by
        apply List.sum_eq_zero
        intro q hq
        obtain ⟨v, hv, rfl⟩ := List.mem_map.mp hq
        rw [h v hv]
        rfl
      simp only [List.isEmpty_cons, hnan, hpinf, hninf, Bool.false_and, if_false,
        Bool.false_eq_true, qsum_eq, hsum, qdiv_eq, zero_div]

/-- C1: each synchronized row's deviation is `(bid_ex1 / bid_ex2 - 1) * 100`,
computed from exact price parity and never from the sample mean of the
ratio series; consequently when `bid_ex1 = bid_ex2 ≠ 0` on every
synchronized row, every row's deviation is 0 — regardless of any trend in
the absolute price level — and `max_deviation_pct`, `min_deviation_pct`
and `deviation_asymmetry` are all 0. -/
theorem deviation_from_parity (d1 d2 : List Tick) (th : Option (List ℚ)) (z : ℚ)
    (rec : MetricRecord) (h : analyze_pair_fast d1 d2 th z = some rec) :
    (∀ r ∈ joinAsof d1 d2, ∀ b : ℚ, r.bid2 = some b → b ≠ 0 →
        rowDeviation r = FV.fin ((r.bid1 / b - 1) * 100))
    ∧ ((∀ r ∈ joinAsof d1 d2, r.bid2 = some r.bid1 ∧ r.bid1 ≠ 0) →
        (∀ r ∈ joinAsof d1 d2, rowDeviation r = FV.fin 0)
        ∧ rec.max_deviation_pct = FV.fin 0
        ∧ rec.min_deviation_pct = FV.fin 0
        ∧ rec.deviation_asymmetry = FV.fin 0) := by
  have hform : ∀ r : JRow, ∀ b : ℚ, r.bid2 = some b → b ≠ 0 →
      rowDeviation r = FV.fin ((r.bid1 / b - 1) * 100) := by
    intro r b hb hbne
    simp [rowDeviation, ratioFV, hb, hbne, deviationFV, qdiv_eq, qsub_eq, qmul_eq]
  refine ⟨fun r _ => hform r, ?_⟩
  intro heq
  have hdev : ∀ r ∈ joinAsof d1 d2, rowDeviation r = FV.fin 0 := by
    intro r hr
    obtain ⟨hb2, hbne⟩ := heq r hr
    rw [hform r r.bid1 hb2 hbne, div_self hbne]
    norm_num
  refine ⟨hdev, ?_⟩
  obtain ⟨_, hne, hcore⟩ := analyze_pair_fast_some_inv h
  obtain ⟨vmax, vmin, vmean, mn, mx, t0, t1, t2, p0, p1, p2, dl, lastDev,
    hvmax, hvmin, hvmean, _, _, _, _, _, _, _, _, _, _, hrec⟩ :=
    analyzeCore_some_inv hcore
  have hall : ∀ v ∈ (joinAsof d1 d2).map rowDeviation, v = FV.fin 0 := by
    intro v hv
    obtain ⟨r, hr, rfl⟩ := List.mem_map.mp hv
    exact hdev r hr
  have hdne : (joinAsof d1 d2).map rowDeviation ≠ [] := by
    intro hnil
    rw [List.map_eq_nil_iff] at hnil
    rw [hnil] at hne
    simp at hne
  obtain ⟨hmax0, hmin0, hmean0⟩ :=
    polars_aggregates_fin0 ((joinAsof d1 d2).map rowDeviation) hdne hall
  rw [hmax0] at hvmax
  rw [hmin0] at hvmin
  rw [hmean0] at hvmean
  simp only [toFloatQ, if_neg (by simp : ¬(FV.fin 0 = FV.null)),
    Option.some.injEq] at hvmax hvmin hvmean
  rw [hrec]
  simp only [buildRecord]
  exact ⟨hvmax.symm, hvmin.symm, hvmean.symm⟩

/-- Witness for C1: equal bids with a strong upward trend in the absolute
price level; the asks differ between the venues. -/
theorem deviation_from_parity_witness :
    ∃ rec, analyze_pair_fast d1eq d2eq none (mkRat 1 20) = some rec
      ∧ (∀ r ∈ joinAsof d1eq d2eq, r.bid2 = some r.bid1 ∧ r.bid1 ≠ 0)
      ∧ rec.max_deviation_pct = FV.fin 0
      ∧ rec.min_deviation_pct = FV.fin 0
      ∧ rec.deviation_asymmetry = FV.fin 0 := by
  have hsome : (analyze_pair_fast d1eq d2eq none (mkRat 1 20)).isSome = true := by decide
  have hrec := (Option.some_get hsome).symm
  have h := (deviation_from_parity d1eq d2eq none (mkRat 1 20) _ hrec).2 (by decide)
  exact ⟨_, hrec, by decide, h.2.1, h.2.2.1, h.2.2.2⟩

/-! ### Zero duration gives zero rates (C7) -/

/-- C7: when the synchronized series' timestamps have equal minimum and
maximum (zero duration), every per-hour and per-minute rate field of the
returned record is exactly 0 and `duration_hours` is 0 — never a division
fault, which the embedding would surface as `none`; and for any input the
average cycle duration of a threshold is 0 whenever that threshold's cycle
count is 0. -/
theorem zero_duration_rates :
    (∀ (d1 d2 : List Tick) (th : Option (List ℚ)) (z : ℚ) (rec : MetricRecord),
        analyze_pair_fast d1 d2 th z = some rec →
        ((joinAsof d1 d2).map JRow.ts).min? = ((joinAsof d1 d2).map JRow.ts).max? →
        rec.zero_crossings_per_hour = 0
        ∧ rec.zero_crossings_per_minute = 0
        ∧ rec.cycles_030bp_per_hour = 0
        ∧ rec.cycles_050bp_per_hour = 0
        ∧ rec.cycles_040bp_per_hour = 0
        ∧ rec.duration_hours = 0)
    ∧ (∀ (d1 d2 : List Tick) (th : Option (List ℚ)) (z : ℚ) (rec : MetricRecord),
        analyze_pair_fast d1 d2 th z = some rec →
        (rec.opportunity_cycles_030bp = 0 → rec.avg_cycle_duration_030bp_sec = 0)
        ∧ (rec.opportunity_cycles_050bp = 0 → rec.avg_cycle_duration_050bp_sec = 0)
        ∧ (rec.opportunity_cycles_040bp = 0 → rec.avg_cycle_duration_040bp_sec = 0)) := by
  constructor
  · intro d1 d2 th z rec h hdur
    obtain ⟨_, _, hcore⟩ := analyze_pair_fast_some_inv h
    obtain ⟨vmax, vmin, vmean, mn, mx, t0, t1, t2, p0, p1, p2, dl, lastDev,
      _, _, _, hmn, hmx, _, _, _, _, _, _, _, _, hrec⟩ := analyzeCore_some_inv hcore
    have hmnmx : mn = mx := by
      have := (hmn.symm.trans hdur).trans hmx
      exact Option.some.injEq _ _ ▸ this
    have hdur0 : qdiv (qsub mx mn) 3600 = 0 := by
      rw [hmnmx, qsub_eq, qdiv_eq, sub_self, zero_div]
    rw [hrec]
    simp [buildRecord, hdur0]
  · intro d1 d2 th z rec h
    obtain ⟨_, _, hcore⟩ := analyze_pair_fast_some_inv h
    obtain ⟨vmax, vmin, vmean, mn, mx, t0, t1, t2, p0, p1, p2, dl, lastDev,
      _, _, _, _, _, _, _, _, _, _, _, _, _, hrec⟩ := analyzeCore_some_inv hcore
    rw [hrec]
    simp only [buildRecord]
    refine ⟨fun h0 => ?_, fun h0 => ?_, fun h0 => ?_⟩ <;> rw [h0] <;> norm_num

/-- Witness for C7 at a one-row (zero-duration) synchronized series. -/
theorem zero_duration_rates_witness :
    ∃ rec, analyze_pair_fast d1one d2one none (mkRat 1 20) = some rec
      ∧ rec.zero_crossings_per_hour = 0
      ∧ rec.zero_crossings_per_minute = 0
      ∧ rec.cycles_030bp_per_hour = 0
      ∧ rec.duration_hours = 0
      ∧ (rec.opportunity_cycles_030bp = 0 → rec.avg_cycle_duration_030bp_sec = 0) := by
  have hsome : (analyze_pair_fast d1one d2one none (mkRat 1 20)).isSome = true := by decide
  have hrec := (Option.some_get hsome).symm
  have hA := zero_duration_rates.1 d1one d2one none (mkRat 1 20) _ hrec (by decide)
  have hB := zero_duration_rates.2 d1one d2one none (mkRat 1 20) _ hrec
  exact ⟨_, hrec, hA.1, hA.2.1, hA.2.2.1, hA.2.2.2.2.2, hB.1⟩

/-! ### Fixed `030bp`/`050bp`/`040bp` field names (C10) -/

/-- C10: the returned dictionary always carries the same fixed key set with
literal suffixes `030bp`, `050bp` and `040bp`, and those fields are bound
to `thresholds[0]`, `thresholds[1]` and `thresholds[2]` respectively —
whatever the supplied threshold values are, so the names need not reflect
the values used. -/
theorem fixed_threshold_keys (d1 d2 : List Tick) (th : Option (List ℚ)) (z : ℚ)
    (rec : MetricRecord) (h : analyze_pair_fast d1 d2 th z = some rec) :
    (toDict rec).map Prod.fst = metricKeys
    ∧ (∀ (t0 t1 t2 : ℚ) (rest : List ℚ), th = some (t0 :: t1 :: t2 :: rest) →
        rec.opportunity_cycles_030bp = cyclesForThreshold d1 d2 t0 z
        ∧ rec.opportunity_cycles_050bp = cyclesForThreshold d1 d2 t1 z
        ∧ rec.opportunity_cycles_040bp = cyclesForThreshold d1 d2 t2 z) := by
  refine ⟨rfl, ?_⟩
  intro t0 t1 t2 rest hth
  obtain ⟨_, _, hcore⟩ := analyze_pair_fast_some_inv h
  obtain ⟨vmax, vmin, vmean, mn, mx, t0', t1', t2', p0, p1, p2, dl, lastDev,
    _, _, _, _, _, ht0, ht1, ht2, _, _, _, _, _, hrec⟩ := analyzeCore_some_inv hcore
  subst hth
  simp only [Option.getD_some, List.get?] at ht0 ht1 ht2
  obtain rfl : t0 = t0' := Option.some.injEq _ _ ▸ ht0
  obtain rfl : t1 = t1' := Option.some.injEq _ _ ▸ ht1
  obtain rfl : t2 = t2' := Option.some.injEq _ _ ▸ ht2
  rw [hrec]
  exact ⟨rfl, rfl, rfl⟩

/-- Witness for C10 with thresholds `[1, 2, 3]`, none of which are the
default `0.3`/`0.5`/`0.4` values the suffixes suggest. -/
theorem fixed_threshold_keys_witness :
    ∃ rec, analyze_pair_fast d1one d2one (some [1, 2, 3]) (mkRat 1 20) = some rec
      ∧ (toDict rec).map Prod.fst = metricKeys
      ∧ rec.opportunity_cycles_030bp = cyclesForThreshold d1one d2one 1 (mkRat 1 20) := by
  have hsome :
      (analyze_pair_fast d1one d2one (some [1, 2, 3]) (mkRat 1 20)).isSome = true := by
    decide
  have hrec := (Option.some_get hsome).symm
  have h := fixed_threshold_keys d1one d2one (some [1, 2, 3]) (mkRat 1 20) _ hrec
  exact ⟨_, hrec, h.1, (h.2 1 2 3 [] rfl).1⟩

/-! ### The ask columns never influence the result (C9) -/

theorem tsSortedB_eq_chainB : ∀ l : List Tick, tsSortedB l = chainB (l.map Tick.ts) := by
  intro l
  induction l with
  | nil => rfl
  | cons a t ih =>
    cases t with
    | nil => rfl
    | cons b t2 =>
      simp only [tsSortedB, chainB, List.map_cons]
      rw [ih]
      rfl

theorem filter_le_map_congr : ∀ (d d' : List Tick),
    d.map (fun x => (x.ts, x.bid)) = d'.map (fun x => (x.ts, x.bid)) → ∀ t : ℚ,
    (d.filter (fun x => decide (x.ts ≤ t))).map (fun x => (x.ts, x.bid))
      = (d'.filter (fun x => decide (x.ts ≤ t))).map (fun x => (x.ts, x.bid)) := by
  intro d
  induction d with
  | nil =>
    intro d' h t
    cases d' with
    | nil => rfl
    | cons => simp at h
  | cons a tl ih =>
    intro d' h t
    cases d' with
    | nil => simp at h
    | cons a' tl' =>
      simp only [List.map_cons, List.cons.injEq] at h
      obtain ⟨hpair, htl⟩ := h
      have hts : a.ts = a'.ts := congrArg Prod.fst hpair
      have h2 : (decide (a.ts ≤ t)) = (decide (a'.ts ≤ t)) := by rw [hts]
      rw [List.filter_cons, List.filter_cons, ← h2]
      cases hd : decide (a.ts ≤ t)
      · simp only [Bool.false_eq_true, if_false]
        exact ih tl' htl t
      · simp only [if_true, List.map_cons, List.cons.injEq]
        exact ⟨hpair, ih tl' htl t⟩

theorem asofMatch_proj_congr (d d' : List Tick)
    (h : d.map (fun x => (x.ts, x.bid)) = d'.map (fun x => (x.ts, x.bid))) (t : ℚ) :
    (asofMatch d t).map (fun x => (x.ts, x.bid))
      = (asofMatch d' t).map (fun x => (x.ts, x.bid)) := by
  rw [asofMatch, asofMatch, ← List.getLast?_map, ← List.getLast?_map,
    filter_le_map_congr d d' h t]

theorem map_pair_congr {γ : Type} (f : ℚ → ℚ → γ) :
    ∀ (d d' : List Tick),
      d.map (fun x => (x.ts, x.bid)) = d'.map (fun x => (x.ts, x.bid)) →
      d.map (fun a => f a.ts a.bid) = d'.map (fun a => f a.ts a.bid) := by
  intro d
  induction d with
  | nil =>
    intro d' h
    cases d' with
    | nil => rfl
    | cons => simp at h
  | cons a tl ih =>
    intro d' h
    cases d' with
    | nil => simp at h
    | cons a' tl' =>
      simp only [List.map_cons, List.cons.injEq] at h ⊢
      obtain ⟨hpair, htl⟩ := h
      have hts : a.ts = a'.ts := congrArg Prod.fst hpair
      have hbid : a.bid = a'.bid := congrArg Prod.snd hpair
      exact ⟨by rw [hts, hbid], ih tl' htl⟩

theorem joinAsof_dev_map (l r : List Tick) :
    (joinAsof l r).map rowDeviation
      = l.map (fun a => deviationFV (ratioFV a.bid ((asofMatch r a.ts).map Tick.bid))) := by
  rw [joinAsof, List.map_map]
  refine List.map_congr_left ?_
  intro a _
  cases h : asofMatch r a.ts <;> simp [h, rowDeviation, Function.comp]

theorem joinAsof_ts_map (l r : List Tick) :
    (joinAsof l r).map JRow.ts = l.map Tick.ts := by
  rw [joinAsof, List.map_map]
  refine List.map_congr_left ?_
  intro a _
  cases h : asofMatch r a.ts <;> simp [h, Function.comp]

/-- C9: the result of `analyze_pair_fast` depends only on the `timestamp`
and `bestBid` columns of the two inputs — two input pairs agreeing on
timestamps and bids (but with any ask values) produce identical results;
the ask columns are carried through the join but never read by a metric. -/
theorem analyze_pair_fast_ignores_asks (d1 d2 d1' d2' : List Tick)
    (th : Option (List ℚ)) (z : ℚ)
    (h1 : d1.map (fun x => (x.ts, x.bid)) = d1'.map (fun x => (x.ts, x.bid)))
    (h2 : d2.map (fun x => (x.ts, x.bid)) = d2'.map (fun x => (x.ts, x.bid))) :
    analyze_pair_fast d1 d2 th z = analyze_pair_fast d1' d2' th z := by
  have hts1 : d1.map Tick.ts = d1'.map Tick.ts := by
    have := congrArg (List.map Prod.fst) h1
    simpa [List.map_map, Function.comp] using this
  have hts2 : d2.map Tick.ts = d2'.map Tick.ts := by
    have := congrArg (List.map Prod.fst) h2
    simpa [List.map_map, Function.comp] using this
  have hs1 : tsSortedB d1 = tsSortedB d1' := by
    rw [tsSortedB_eq_chainB, tsSortedB_eq_chainB, hts1]
  have hs2 : tsSortedB d2 = tsSortedB d2' := by
    rw [tsSortedB_eq_chainB, tsSortedB_eq_chainB, hts2]
  have hmatch : ∀ t, (asofMatch d2 t).map Tick.bid = (asofMatch d2' t).map Tick.bid := by
    intro t
    have h' := congrArg (Option.map Prod.snd) (asofMatch_proj_congr d2 d2' h2 t)
    simpa [Option.map_map, Function.comp] using h'
  have hdev : (joinAsof d1 d2).map rowDeviation
      = (joinAsof d1' d2').map rowDeviation := by
    rw [joinAsof_dev_map, joinAsof_dev_map]
    calc d1.map (fun a => deviationFV (ratioFV a.bid ((asofMatch d2 a.ts).map Tick.bid)))
        = d1.map (fun a => deviationFV (ratioFV a.bid ((asofMatch d2' a.ts).map Tick.bid))) :=
          List.map_congr_left (fun a _ => by rw [hmatch a.ts])
      _ = d1'.map (fun a => deviationFV (ratioFV a.bid ((asofMatch d2' a.ts).map Tick.bid))) :=
          map_pair_congr (fun ts bid => deviationFV (ratioFV bid ((asofMatch d2' ts).map Tick.bid)))
            d1 d1' h1
  have hlen : (joinAsof d1 d2).length = (joinAsof d1' d2').length := by
    have := congrArg List.length hdev
    simpa using this
  have htsj : (joinAsof d1 d2).map JRow.ts = (joinAsof d1' d2').map JRow.ts := by
    rw [joinAsof_ts_map, joinAsof_ts_map, hts1]
  have hempty : (joinAsof d1 d2).isEmpty = (joinAsof d1' d2').isEmpty := by
    have hlb : ∀ m : List JRow, m.isEmpty = decide (m.length = 0) := by
      intro m; cases m <;> simp
    rw [hlb, hlb, hlen]
  have hJ : analyzeJoined (joinAsof d1 d2) th z = analyzeJoined (joinAsof d1' d2') th z := by
    rw [analyzeJoined, analyzeJoined, hempty, hlen, htsj, hdev]
  rw [analyze_pair_fast, analyze_pair_fast, hs1, hs2, hJ]

/-- Witness for C9: one-row inputs that differ only in their ask columns
produce the same record. -/
theorem analyze_pair_fast_ignores_asks_witness :
    d1ask ≠ d1ask'
    ∧ d1ask.map (fun x => (x.ts, x.bid)) = d1ask'.map (fun x => (x.ts, x.bid))
    ∧ d2ask.map (fun x => (x.ts, x.bid)) = d2ask'.map (fun x => (x.ts, x.bid))
    ∧ analyze_pair_fast d1ask d2ask none (mkRat 1 20)
        = analyze_pair_fast d1ask' d2ask' none (mkRat 1 20) :=
  ⟨by decide, by decide, by decide,
   analyze_pair_fast_ignores_asks d1ask d2ask d1ask' d2ask' none (mkRat 1 20)
     (by decide) (by decide)⟩

/-- Witness for C8: concrete streams with a trailing never-closing run. -/
theorem count_complete_cycles_algebraic_witness :
    ([false, true] : List Bool).length = ([false, false] : List Bool).length
    ∧ count_complete_cycles [false, true] [false, false] ≤ trueRuns [false, true]
    ∧ count_complete_cycles ([false, true] ++ [true, true]) ([false, false] ++ [false, false])
        = count_complete_cycles [false, true] [false, false] :=
  ⟨by decide,
   (count_complete_cycles_algebraic [false, true] [false, false] (by decide)).2.1,
   (count_complete_cycles_algebraic [false, true] [false, false] (by decide)).2.2
     [true, true] [false, false] (by decide)⟩

end Screener
